import Mathlib

/-!
Verification of the repeated-block ID validity classifier (day02).

The classifier decides whether the decimal digit string of an id can be
split into `freq` equal-width blocks that are all numerically identical;
such ids are invalid.  The aggregator counts and sums the invalid ids over
inclusive ranges.

Machine integers are embedded as `Nat`; the `u64` bound `2 ^ 64` appears
explicitly where overflow matters.  A Rust panic (here: `u64::ilog10` on
zero) is embedded as `none` of an `Option` result, which the range
aggregation propagates.
-/

/-- One inclusive id range, printed `start-end`. -/
structure IdRange where
  start : Nat
  «end» : Nat
deriving DecidableEq

/-- Classification mode: `Two` checks only the two-halves split,
`Multiple` checks every candidate block count up to the digit count. -/
inductive Mode where
  | Two
  | Multiple
deriving DecidableEq

/-- Fuel-driven floor logarithm base 10; exact as soon as `n ≤ fuel`. -/
def log10_fuel : Nat → Nat → Nat
  | 0, _ => 0
  | fuel + 1, n => if n < 10 then 0 else log10_fuel fuel (n / 10) + 1

/-- Rust `u64::ilog10`: floor of log base 10, panicking (`none`) on zero. -/
def ilog10 (n : Nat) : Option Nat :=
  if n = 0 then none else some (log10_fuel n n)

/-- Decimal digit count of a positive number, `id.ilog10() + 1`. -/
def num_digits (n : Nat) : Nat := log10_fuel n n + 1

/-- Largest block count tried: `2` under `Mode::Two`, `digits` under
`Mode::Multiple`. -/
def max_freq (mode : Mode) (digits : Nat) : Nat :=
  match mode with
  | Mode.Two => 2
  | Mode.Multiple => digits

/-- Inner loop of `id_is_valid` for one block count: starting from
`id_pivoted`, repeatedly shift right by one block (`/ pivot`) and compare
the exposed block (`% pivot`) with the rightmost block `right`; `true`
(a differing block was found, so this block count does not prove the id
invalid) as soon as one comparison differs, `false` if all `k` remaining
blocks equal `right`.  The Rust loop runs `i` over `1..freq`, i.e.
`k = freq - 1` iterations, and breaks on the first differing block. -/
def valid_at_freq_loop (pivot right : Nat) : Nat → Nat → Bool
  | _, 0 => false
  | id_pivoted, k + 1 =>
    let idp := id_pivoted / pivot
    if idp % pivot != right then true
    else valid_at_freq_loop pivot right idp k

/-- Body of the outer loop of `id_is_valid` for one block count `freq`
that divides `digits`: `period` is the block width, `pivot = 10 ^ period`,
`right` the rightmost block. -/
def check_freq (id digits freq : Nat) : Bool :=
  let period := digits / freq
  let pivot := 10 ^ period
  let right := id % pivot
  valid_at_freq_loop pivot right id (freq - 1)

/-- Rust `id_is_valid`: digit count from `ilog10` (panic on `id = 0`
embedded as `none`), then for every `freq` in `2..=max_freq` the id stays
valid when `freq` does not divide the digit count or some block differs
from the rightmost one.  The Rust accumulator `valid = valid &&
valid_at_freq` with `break` on the first failure is exactly the
short-circuiting `List.all` over the same candidates. -/
def id_is_valid (id : Nat) (mode : Mode) : Option Bool :=
  (ilog10 id).map fun l =>
    let digits := l + 1
    (List.range' 2 (max_freq mode digits - 1)).all fun freq =>
      if digits % freq != 0 then true
      else check_freq id digits freq

/-- Filtering step of `invalid_ids_in_range`: keep the ids the classifier
marks invalid, propagating a classifier panic as `none`. -/
def filter_invalid (mode : Mode) : List Nat → Option (List Nat)
  | [] => some []
  | id :: rest => do
    let v ← id_is_valid id mode
    let tail ← filter_invalid mode rest
    pure (if v then tail else id :: tail)

/-- Rust `invalid_ids_in_range`: the ids of `start..=end` (inclusive,
empty when `start > end`) that the classifier marks invalid. -/
def invalid_ids_in_range (r : IdRange) (mode : Mode) : Option (List Nat) :=
  filter_invalid mode (List.range' r.start (r.«end» + 1 - r.start))

/-- Rust `count_sum_invalid_ids_in_range`: fold the invalid ids of the
range into a `(count, sum)` pair starting from `(0, 0)`. -/
def count_sum_invalid_ids_in_range (r : IdRange) (mode : Mode) :
    Option (Nat × Nat) :=
  (invalid_ids_in_range r mode).map fun ids =>
    ids.foldl (fun acc id => (acc.1 + 1, acc.2 + id)) (0, 0)

/-- Rust `calc_count_sum`: add each range's `(count, sum)` contribution
into running totals. -/
def calc_count_sum (ranges : List IdRange) (mode : Mode) :
    Option (Nat × Nat) :=
  ranges.foldlM
    (fun acc r =>
      (count_sum_invalid_ids_in_range r mode).map fun cs =>
        (acc.1 + cs.1, acc.2 + cs.2))
    (0, 0)

/-- With enough fuel, `log10_fuel` is the exact floor logarithm:
`10 ^ log ≤ n < 10 ^ (log + 1)` for every positive `n`. -/
theorem log10_fuel_bounds :
    ∀ fuel n, 1 ≤ n → n ≤ fuel →
      10 ^ log10_fuel fuel n ≤ n ∧ n < 10 ^ (log10_fuel fuel n + 1) := by
  intro fuel
  induction fuel with
  | zero => intro n h1 h2; omega
  | succ fuel ih =>
    intro n h1 h2
    by_cases hlt : n < 10
    · simp only [log10_fuel, if_pos hlt, pow_zero, pow_one]
      omega
    · have h10 : 10 ≤ n := by omega
      have hd1 : 1 ≤ n / 10 := (Nat.one_le_div_iff (by norm_num)).mpr h10
      have hdf : n / 10 ≤ fuel := by
        have := Nat.div_lt_self (by omega : 0 < n) (by norm_num : 1 < 10)
        omega
      obtain ⟨hlo, hhi⟩ := ih (n / 10) hd1 hdf
      simp only [log10_fuel, if_neg hlt]
      constructor
      · calc 10 ^ (log10_fuel fuel (n / 10) + 1)
            = 10 ^ log10_fuel fuel (n / 10) * 10 := by ring
          _ ≤ n / 10 * 10 := Nat.mul_le_mul_right 10 hlo
          _ ≤ n := Nat.div_mul_le_self n 10
      · calc n < 10 ^ (log10_fuel fuel (n / 10) + 1) * 10 :=
              (Nat.div_lt_iff_lt_mul (by norm_num)).mp hhi
          _ = 10 ^ (log10_fuel fuel (n / 10) + 1 + 1) := by ring

/-- The digit count is exact: `10 ^ (digits - 1) ≤ n < 10 ^ digits`. -/
theorem num_digits_bounds (n : Nat) (h : 1 ≤ n) :
    10 ^ (num_digits n - 1) ≤ n ∧ n < 10 ^ num_digits n := by
  have := log10_fuel_bounds n n h le_rfl
  simpa [num_digits] using this

/-- On positive input the classifier does not panic and is the
short-circuit conjunction over candidate block counts. -/
theorem id_is_valid_pos (id : Nat) (mode : Mode) (h : 1 ≤ id) :
    id_is_valid id mode =
      some ((List.range' 2 (max_freq mode (num_digits id) - 1)).all
        fun freq =>
          if num_digits id % freq != 0 then true
          else check_freq id (num_digits id) freq) := by
  have h0 : id ≠ 0 := by omega
  simp [id_is_valid, ilog10, h0, num_digits]

/-- Under `Mode::Two` only the candidate `freq = 2` is examined. -/
theorem id_is_valid_two (id : Nat) (h : 1 ≤ id) :
    id_is_valid id Mode.Two =
      some (if num_digits id % 2 != 0 then true
            else check_freq id (num_digits id) 2) := by
  rw [id_is_valid_pos id Mode.Two h]
  have hr : List.range' 2 (max_freq Mode.Two (num_digits id) - 1) = [2] := rfl
  rw [hr]
  simp [List.all]

/-- For `freq = 2` the inner loop is a single comparison of the shifted
upper half (reduced mod the pivot) with the lower half. -/
theorem check_freq_two (id digits : Nat) :
    check_freq id digits 2 =
      ((id / 10 ^ (digits / 2)) % 10 ^ (digits / 2)
        != id % 10 ^ (digits / 2)) := by
  simp only [check_freq, valid_at_freq_loop]
  by_cases hb :
      ((id / 10 ^ (digits / 2)) % 10 ^ (digits / 2)
        != id % 10 ^ (digits / 2)) = true
  · simp [hb]
  · simp only [Bool.not_eq_true] at hb
    simp [hb]

/-- An odd digit count is never divisible by 2, so `Mode::Two` keeps the
id valid. -/
theorem two_valid_of_odd_digits (id : Nat) (h : 1 ≤ id)
    (hodd : num_digits id % 2 = 1) :
    id_is_valid id Mode.Two = some true := by
  rw [id_is_valid_two id h, hodd]
  simp

/-- For an even digit count `2 * k`, `Mode::Two` marks the id invalid
exactly when the upper `k` digits equal the lower `k` digits. -/
theorem two_invalid_iff (id k : Nat) (h : 1 ≤ id)
    (hk : num_digits id = 2 * k) :
    (id_is_valid id Mode.Two = some false ↔
      id / 10 ^ k = id % 10 ^ k) := by
  have hmod : num_digits id % 2 = 0 := by omega
  have hdiv : num_digits id / 2 = k := by omega
  rw [id_is_valid_two id h, check_freq_two, hmod, hdiv]
  have hlt : id < 10 ^ (2 * k) := hk ▸ (num_digits_bounds id h).2
  have hq : id / 10 ^ k < 10 ^ k := by
    rw [Nat.div_lt_iff_lt_mul (pow_pos (by norm_num : (0:ℕ) < 10) k)]
    calc id < 10 ^ (2 * k) := hlt
      _ = 10 ^ k * 10 ^ k := by ring
  rw [Nat.mod_eq_of_lt hq]
  simp

/-- C1: the claim says `is_valid(0, mode)` returns `true` for every mode;
the code instead calls `0u64.ilog10()`, which panics, so the classifier
diverges (embedded `none`) on `id = 0` in both modes. -/
theorem c1_zero_id_panics :
    id_is_valid 0 Mode.Two = none ∧ id_is_valid 0 Mode.Multiple = none := by
  exact ⟨rfl, rfl⟩

/-- C7: the literal fixtures of the repository's tests: `55`, `6464`,
`123123`, `11` invalid and `101` valid under `Mode::Two`; `1111111`
invalid under `Mode::Multiple` (the block count `freq = digits = 7` is
itself a candidate). -/
theorem c7_literal_fixtures :
    id_is_valid 55 Mode.Two = some false ∧
    id_is_valid 6464 Mode.Two = some false ∧
    id_is_valid 123123 Mode.Two = some false ∧
    id_is_valid 101 Mode.Two = some true ∧
    id_is_valid 11 Mode.Two = some false ∧
    id_is_valid 1111111 Mode.Multiple = some false := by
  exact ⟨rfl, rfl, rfl, rfl, rfl, rfl⟩

/-- C4: reference characterization of `Mode::Two`: an id with an odd
digit count is always valid, and an id with `2 * k` digits is invalid
exactly when the numeric value of its upper `k` digits equals that of its
lower `k` digits. -/
theorem c4_two_mode_characterization (id : Nat) (h : 1 ≤ id) :
    (num_digits id % 2 = 1 → id_is_valid id Mode.Two = some true) ∧
    (∀ k, num_digits id = 2 * k →
      (id_is_valid id Mode.Two = some false ↔
        id / 10 ^ k = id % 10 ^ k)) :=
  ⟨fun hodd => two_valid_of_odd_digits id h hodd,
   fun k hk => two_invalid_iff id k h hk⟩

/-- Witness for C4 at `id = 12`. -/
theorem c4_two_mode_characterization_witness :
    1 ≤ 12 ∧
    ((num_digits 12 % 2 = 1 → id_is_valid 12 Mode.Two = some true) ∧
     (∀ k, num_digits 12 = 2 * k →
       (id_is_valid 12 Mode.Two = some false ↔
         12 / 10 ^ k = 12 % 10 ^ k))) :=
  ⟨by decide, c4_two_mode_characterization 12 (by decide)⟩

/-- C5: an id whose digit count is a prime other than 2 is always valid
under `Mode::Two`, since the only candidate block count is 2 and an odd
prime is not divisible by 2. -/
theorem c5_prime_digit_count_valid (id : Nat) (h : 1 ≤ id)
    (hp : Nat.Prime (num_digits id)) (h2 : num_digits id ≠ 2) :
    id_is_valid id Mode.Two = some true :=
  two_valid_of_odd_digits id h (Nat.odd_iff.mp (hp.odd_of_ne_two h2))

/-- Witness for C5 at `id = 101` (3 digits, 3 is prime). -/
theorem c5_prime_digit_count_valid_witness :
    (1 ≤ 101 ∧ Nat.Prime (num_digits 101) ∧ num_digits 101 ≠ 2) ∧
    id_is_valid 101 Mode.Two = some true :=
  ⟨⟨by decide, by decide, by decide⟩,
   c5_prime_digit_count_valid 101 (by decide) (by decide) (by decide)⟩

/-- C3: `Mode::Multiple` refines `Mode::Two`: an id marked invalid under
`Mode::Two` is also marked invalid under `Mode::Multiple`, because the
candidate `freq = 2` examined under `Two` is among the candidates
examined under `Multiple`. -/
theorem c3_multiple_refines_two (id : Nat) (h : 1 ≤ id)
    (htwo : id_is_valid id Mode.Two = some false) :
    id_is_valid id Mode.Multiple = some false := by
  rw [id_is_valid_two id h] at htwo
  by_cases hmod : num_digits id % 2 = 0
  · have hbne : (num_digits id % 2 != 0) = false := by simp [hmod]
    rw [hbne] at htwo
    simp only [Bool.false_eq_true, if_false, Option.some.injEq] at htwo
    have hge : 2 ≤ num_digits id := by
      have h1d : 1 ≤ num_digits id := Nat.le_add_left 1 _
      omega
    rw [id_is_valid_pos id Mode.Multiple h]
    refine congrArg some (List.all_eq_false.mpr ⟨2, ?_, ?_⟩)
    · rw [List.mem_range']
      refine ⟨0, ?_, by omega⟩
      simp only [max_freq]
      omega
    · simp [hbne, htwo]
  · exfalso
    have h1m : num_digits id % 2 = 1 := by omega
    have hbne : (num_digits id % 2 != 0) = true := by simp [h1m]
    rw [hbne] at htwo
    simp at htwo

/-- Witness for C3 at `id = 11`. -/
theorem c3_multiple_refines_two_witness :
    (1 ≤ 11 ∧ id_is_valid 11 Mode.Two = some false) ∧
    id_is_valid 11 Mode.Multiple = some false :=
  ⟨⟨by decide, by decide⟩,
   c3_multiple_refines_two 11 (by decide) (by decide)⟩

/-- C2: on the `u64` domain the classifier is total (no panic: it
returns a boolean for every positive id below `2 ^ 64`) and the pivot
`10 ^ period` fits in a `u64` for every candidate block count that
divides the digit count, so `10u64.pow(period)` never overflows. -/
theorem c2_total_no_overflow (id : Nat) (mode : Mode) (h1 : 1 ≤ id)
    (h2 : id < 2 ^ 64) :
    (∃ b, id_is_valid id mode = some b) ∧
    ∀ freq, 2 ≤ freq → freq ≤ max_freq mode (num_digits id) →
      num_digits id % freq = 0 →
      10 ^ (num_digits id / freq) < 2 ^ 64 := by
  constructor
  · rw [id_is_valid_pos id mode h1]
    exact ⟨_, rfl⟩
  · intro freq h2f _ _
    have hd20 : num_digits id ≤ 20 := by
      by_contra hgt
      push_neg at hgt
      have hpow : 10 ^ 20 ≤ 10 ^ (num_digits id - 1) :=
        Nat.pow_le_pow_right (by norm_num) (by omega)
      have hid : (10:ℕ) ^ 20 ≤ id := le_trans hpow (num_digits_bounds id h1).1
      have hcmp : (2:ℕ) ^ 64 < 10 ^ 20 := by norm_num
      exact lt_irrefl _ (lt_trans (lt_of_le_of_lt hid h2) hcmp)
    have hper : num_digits id / freq ≤ 10 := by
      have hdd : num_digits id / freq ≤ num_digits id / 2 :=
        Nat.div_le_div_left h2f (by norm_num)
      omega
    calc 10 ^ (num_digits id / freq)
        ≤ 10 ^ 10 := Nat.pow_le_pow_right (by norm_num) hper
      _ < 2 ^ 64 := by norm_num

/-- Witness for C2 at `id = 123123` under `Mode::Multiple`. -/
theorem c2_total_no_overflow_witness :
    (1 ≤ 123123 ∧ 123123 < 2 ^ 64) ∧
    ((∃ b, id_is_valid 123123 Mode.Multiple = some b) ∧
     ∀ freq, 2 ≤ freq →
       freq ≤ max_freq Mode.Multiple (num_digits 123123) →
       num_digits 123123 % freq = 0 →
       10 ^ (num_digits 123123 / freq) < 2 ^ 64) :=
  ⟨⟨by norm_num, by norm_num⟩,
   c2_total_no_overflow 123123 Mode.Multiple (by norm_num) (by norm_num)⟩

/-- On positive input the classifier returns a boolean. -/
theorem id_is_valid_some (id : Nat) (mode : Mode) (h : 1 ≤ id) :
    ∃ b, id_is_valid id mode = some b := by
  rw [id_is_valid_pos id mode h]
  exact ⟨_, rfl⟩

/-- Every member of `range' s n` is at least `s`. -/
theorem mem_range'_one_le (s n x : Nat) (h : 1 ≤ s)
    (hx : x ∈ List.range' s n) : 1 ≤ x := by
  rw [List.mem_range'] at hx
  obtain ⟨i, _, rfl⟩ := hx
  omega

/-- On a list of positive ids the filtering step never panics and is the
plain filter keeping the ids classified invalid. -/
theorem filter_invalid_pos (mode : Mode) :
    ∀ l : List Nat, (∀ x ∈ l, 1 ≤ x) →
      filter_invalid mode l =
        some (l.filter fun id => id_is_valid id mode == some false) := by
  intro l
  induction l with
  | nil => intro _; rfl
  | cons id rest ih =>
    intro h
    obtain ⟨v, hv⟩ := id_is_valid_some id mode (h id (by simp))
    have ih2 := ih fun x hx => h x (by simp [hx])
    cases v <;>
      simp [filter_invalid, hv, ih2, List.filter_cons]

/-- C6: aggregating the one-element range `a-a` yields `(1, a)` when the
classifier marks `a` invalid and `(0, 0)` when it marks `a` valid. -/
theorem c6_singleton_range (a : Nat) (mode : Mode) (h : 1 ≤ a) :
    count_sum_invalid_ids_in_range ⟨a, a⟩ mode =
      some (if id_is_valid a mode = some false then (1, a)
            else (0, 0)) := by
  obtain ⟨v, hv⟩ := id_is_valid_some a mode h
  have hn : a + 1 - a = 1 := by omega
  have hrange : List.range' a (a + 1 - a) = [a] := by
    rw [hn, List.range'_one]
  have hfilter := filter_invalid_pos mode [a] (by simpa using h)
  cases v <;>
    simp [count_sum_invalid_ids_in_range, invalid_ids_in_range, hrange,
      hfilter, List.filter_cons, hv]

/-- Witness for C6 at `a = 11` under `Mode::Two`. -/
theorem c6_singleton_range_witness :
    1 ≤ 11 ∧
    count_sum_invalid_ids_in_range ⟨11, 11⟩ Mode.Two =
      some (if id_is_valid 11 Mode.Two = some false then (1, 11)
            else (0, 0)) :=
  ⟨by decide, c6_singleton_range 11 Mode.Two (by decide)⟩

/-- C9: a reversed range (`start > end`) enumerates no ids at all, so the
classifier is never invoked, nothing panics, and the aggregate is
`(0, 0)`. -/
theorem c9_reversed_range_empty (r : IdRange) (mode : Mode)
    (h : r.«end» < r.start) :
    List.range' r.start (r.«end» + 1 - r.start) = [] ∧
    invalid_ids_in_range r mode = some [] ∧
    count_sum_invalid_ids_in_range r mode = some (0, 0) := by
  have h0 : r.«end» + 1 - r.start = 0 := by omega
  refine ⟨?_, ?_, ?_⟩ <;>
    simp [invalid_ids_in_range, count_sum_invalid_ids_in_range, h0,
      filter_invalid]

/-- Witness for C9 at the reversed range `5-3`. -/
theorem c9_reversed_range_empty_witness :
    ((⟨5, 3⟩ : IdRange).«end» < (⟨5, 3⟩ : IdRange).start) ∧
    (List.range' (5:Nat) (3 + 1 - 5) = [] ∧
     invalid_ids_in_range ⟨5, 3⟩ Mode.Two = some [] ∧
     count_sum_invalid_ids_in_range ⟨5, 3⟩ Mode.Two = some (0, 0)) :=
  ⟨by decide, c9_reversed_range_empty ⟨5, 3⟩ Mode.Two (by decide)⟩

/-- A range starting at a positive id aggregates without panicking. -/
theorem count_sum_isSome (r : IdRange) (mode : Mode) (h : 1 ≤ r.start) :
    ∃ cs, count_sum_invalid_ids_in_range r mode = some cs := by
  have hall : ∀ x ∈ List.range' r.start (r.«end» + 1 - r.start), 1 ≤ x :=
    fun x hx => mem_range'_one_le r.start _ x h hx
  have hf := filter_invalid_pos mode _ hall
  simp only [count_sum_invalid_ids_in_range, invalid_ids_in_range, hf,
    Option.map_some']
  exact ⟨_, rfl⟩

/-- The running-total loop of `calc_count_sum`, started from any
accumulator, adds the component-wise sum of the per-range
contributions. -/
theorem calc_count_sum_loop (mode : Mode) :
    ∀ ranges : List IdRange, (∀ r ∈ ranges, 1 ≤ r.start) →
    ∀ init : Nat × Nat,
      List.foldlM
        (fun acc r =>
          (count_sum_invalid_ids_in_range r mode).map fun cs =>
            (acc.1 + cs.1, acc.2 + cs.2))
        init ranges =
      some (init + (ranges.map fun r =>
        (count_sum_invalid_ids_in_range r mode).getD (0, 0)).sum) := by
  intro ranges
  induction ranges with
  | nil => intro _ init; simp
  | cons r rs ih =>
    intro h init
    obtain ⟨cs, hcs⟩ := count_sum_isSome r mode (h r (by simp))
    have e1 : (init.1 + cs.1, init.2 + cs.2) = init + cs := rfl
    rw [List.foldlM_cons, hcs]
    simp only [Option.map_some', Option.bind_eq_bind, Option.some_bind, e1,
      ih (fun x hx => h x (by simp [hx])) (init + cs),
      List.map_cons, List.sum_cons, hcs, Option.getD_some]
    rw [add_assoc]

/-- C8: over ranges with positive starts, `calc_count_sum` returns the
component-wise sum of the per-range `(count, sum)` contributions, so
permuting the list of ranges leaves the resulting pair unchanged. -/
theorem c8_sum_of_contributions (ranges : List IdRange) (mode : Mode)
    (h : ∀ r ∈ ranges, 1 ≤ r.start) :
    calc_count_sum ranges mode =
      some ((ranges.map fun r =>
        (count_sum_invalid_ids_in_range r mode).getD (0, 0)).sum) ∧
    ∀ ranges2 : List IdRange, ranges2.Perm ranges →
      calc_count_sum ranges2 mode = calc_count_sum ranges mode := by
  have main : ∀ rs : List IdRange, (∀ r ∈ rs, 1 ≤ r.start) →
      calc_count_sum rs mode =
        some ((rs.map fun r =>
          (count_sum_invalid_ids_in_range r mode).getD (0, 0)).sum) := by
    intro rs hrs
    have hz : ((0, 0) : Nat × Nat) = 0 := rfl
    rw [calc_count_sum, calc_count_sum_loop mode rs hrs (0, 0), hz,
      zero_add]
  refine ⟨main ranges h, ?_⟩
  intro ranges2 hperm
  rw [main ranges h, main ranges2 fun r hr => h r (hperm.mem_iff.mp hr)]
  exact congrArg some (hperm.map _).sum_eq

/-- Witness for C8 on the two-range list `[11-22, 95-115]`. -/
theorem c8_sum_of_contributions_witness :
    (∀ r ∈ [IdRange.mk 11 22, IdRange.mk 95 115], 1 ≤ r.start) ∧
    (calc_count_sum [IdRange.mk 11 22, IdRange.mk 95 115] Mode.Two =
      some (([IdRange.mk 11 22, IdRange.mk 95 115].map fun r =>
        (count_sum_invalid_ids_in_range r Mode.Two).getD (0, 0)).sum) ∧
     ∀ ranges2 : List IdRange,
       ranges2.Perm [IdRange.mk 11 22, IdRange.mk 95 115] →
       calc_count_sum ranges2 Mode.Two =
         calc_count_sum [IdRange.mk 11 22, IdRange.mk 95 115] Mode.Two) :=
  ⟨by decide,
   c8_sum_of_contributions [IdRange.mk 11 22, IdRange.mk 95 115] Mode.Two
     (by decide)⟩
